import Mathlib

/-
Verification of the low-precision number emulation engine of QPyTorch, as it
is used by the CIFAR10 low-precision training example notebook.  Real values
are embedded as rationals; the representable grids of the custom floating
point formats are dyadic rationals, so every quantity below is exact.
-/

/-- Modelled from the spec: the bit width of the storage type used for
intermediate computation (formats are emulated on top of a native 32-bit
float). -/
def compWidth : ℕ := 32

/-- Modelled from the spec: an immutable description of a custom floating
point encoding (exponent width, mantissa width, bias, signedness).  The
engine source defining this class is not part of the example notebook. -/
structure NumberFormat where
  exponentBits : ℕ
  mantissaBits : ℕ
  exponentBias : ℤ
  signed : Bool
deriving DecidableEq, Repr

/-- Modelled from the spec: the standard bias for a given exponent width. -/
def standardBias (e : ℕ) : ℤ := 2 ^ (e - 1) - 1

/-- Modelled from the spec: error taxonomy of the engine. -/
inductive QError where
  | InvalidFormat
  | UnsupportedRoundingCombination
deriving DecidableEq, Repr

/-- Modelled from the spec: the FloatingPoint constructor used by the
notebook.  Construction-time validation fails with InvalidFormat when
the exponent width is below one, the mantissa width is negative, or the
total width (sign bit included) exceeds the computation width. -/
def FloatingPoint (exp man : ℤ) : Except QError NumberFormat :=
  if exp < 1 ∨ man < 0 ∨ (compWidth : ℤ) < exp + man + 1 then
    Except.error QError.InvalidFormat
  else
    Except.ok ⟨exp.toNat, man.toNat, standardBias exp.toNat, true⟩

/-- Modelled from the spec: largest exponent of a normal value.  With the
standard bias this is 2 ^ (e - 1) - 1, reserving the top exponent field. -/
def maxExpF (F : NumberFormat) : ℤ := 2 ^ F.exponentBits - 2 - F.exponentBias

/-- Modelled from the spec: smallest exponent of a normal value, clamped so
that it never exceeds the largest exponent even for degenerate widths. -/
def minExpF (F : NumberFormat) : ℤ := min (1 - F.exponentBias) (maxExpF F)

/-- Modelled from the spec: maximum representable normal magnitude. -/
def maxNormal (F : NumberFormat) : ℚ :=
  (2 - (2 : ℚ) ^ (-(F.mantissaBits : ℤ))) * 2 ^ maxExpF F

/-- Modelled from the spec: minimum representable normal magnitude. -/
def minNormal (F : NumberFormat) : ℚ := 2 ^ minExpF F

/-- Modelled from the spec: smallest subnormal step of the format. -/
def minSubnormal (F : NumberFormat) : ℚ :=
  2 ^ (minExpF F - F.mantissaBits)

/-- Modelled from the spec: the representableRange contract of
NumberFormat, a pure function of the format parameters. -/
def representableRange (F : NumberFormat) : ℚ × ℚ × ℚ :=
  (minNormal F, maxNormal F, minSubnormal F)

/-- Modelled from the spec: the exponent of the binade of a positive
magnitude, clamped to the exponent range of the format. -/
def binadeExp (F : NumberFormat) (a : ℚ) : ℤ :=
  min (maxExpF F) (max (minExpF F) (Int.log 2 a))

/-- Modelled from the spec: the spacing of the representable grid of the
format around the magnitude a. -/
def gridStep (F : NumberFormat) (a : ℚ) : ℚ :=
  2 ^ (binadeExp F a - F.mantissaBits)

/-- Modelled from the spec: the index of the grid point immediately below
the magnitude a. -/
def gridIndex (F : NumberFormat) (a : ℚ) : ℤ := ⌊a / gridStep F a⌋

/-- Modelled from the spec: the position of the magnitude a inside its
bracketing grid interval, in units of the grid spacing. -/
def gridFrac (F : NumberFormat) (a : ℚ) : ℚ := Int.fract (a / gridStep F a)

/-- Modelled from the spec: the representable value immediately below the
magnitude a. -/
def lowerB (F : NumberFormat) (a : ℚ) : ℚ :=
  (gridIndex F a : ℚ) * gridStep F a

/-- Modelled from the spec: the representable value immediately above the
lower bracket of the magnitude a. -/
def upperB (F : NumberFormat) (a : ℚ) : ℚ := lowerB F a + gridStep F a

/-- Sign of a rational, as used by the quantizer (zero is handled before
the sign is consulted). -/
def signQ (x : ℚ) : ℚ := if 0 < x then 1 else -1

/-- Modelled from the spec: membership of a value in the representable set
of a format: zero, or an in-range magnitude lying on the grid. -/
def Representable (F : NumberFormat) (v : ℚ) : Prop :=
  v = 0 ∨ (minSubnormal F ≤ |v| ∧ |v| ≤ maxNormal F ∧
    ∃ k : ℤ, |v| = (k : ℚ) * gridStep F |v|)

/-- Modelled from the spec: the elementwise quantization kernel.  The
rounding discipline is abstracted as a pick function deciding, from the
grid index and the fractional position, whether to round up.  Values whose
magnitude exceeds maxNormal saturate to the signed maximum; values below
minSubnormal flush to zero; in-range values round to one of the two
bracketing representable values. -/
def quantizeScalar (F : NumberFormat) (pick : ℤ → ℚ → Bool) (x : ℚ) : ℚ :=
  if x = 0 then 0
  else if maxNormal F < |x| then signQ x * maxNormal F
  else if |x| < minSubnormal F then 0
  else if pick (gridIndex F |x|) (gridFrac F |x|) then signQ x * upperB F |x|
  else signQ x * lowerB F |x|

/-- Modelled from the spec: round-to-nearest with ties to the bracket whose
grid index is even. -/
def nearestPick (n : ℤ) (frac : ℚ) : Bool :=
  if 1 / 2 < frac then true
  else if frac = 1 / 2 then decide (n % 2 = 1)
  else false

/-- Modelled from the spec: stochastic rounding given a uniform draw u;
round up exactly when the draw falls below the fractional position. -/
def stochasticPick (u : ℚ) (_n : ℤ) (frac : ℚ) : Bool := decide (u < frac)

/-- Modelled from the spec: quantize one element with nearest rounding. -/
def quantizeNearest (F : NumberFormat) (x : ℚ) : ℚ :=
  quantizeScalar F nearestPick x

/-- Modelled from the spec: quantize one element with stochastic rounding,
using the uniform draw u for this element. -/
def quantizeStochastic (F : NumberFormat) (u x : ℚ) : ℚ :=
  quantizeScalar F (stochasticPick u) x

/-- Modelled from the spec: the closed enumeration of rounding modes. -/
inductive RoundingMode where
  | Nearest
  | Stochastic
deriving DecidableEq, Repr

/-- Modelled from the spec: the direction argument of quantize. -/
inductive Direction where
  | Forward
  | Backward
deriving DecidableEq, Repr

/-- Modelled from the spec: the QuantizerSpec configuration of a Quantizer
module, with independent format and rounding per direction; a format of
none expresses identity pass-through for that direction. -/
structure QuantizerSpec where
  forwardFormat : Option NumberFormat
  backwardFormat : Option NumberFormat
  forwardRounding : RoundingMode
  backwardRounding : RoundingMode

/-- Modelled from the spec: step 1 of quantize, selecting the format of the
requested direction. -/
def selFormat (spec : QuantizerSpec) : Direction → Option NumberFormat
  | Direction.Forward => spec.forwardFormat
  | Direction.Backward => spec.backwardFormat

/-- Modelled from the spec: step 1 of quantize, selecting the rounding mode
of the requested direction. -/
def selRounding (spec : QuantizerSpec) : Direction → RoundingMode
  | Direction.Forward => spec.forwardRounding
  | Direction.Backward => spec.backwardRounding

/-- Modelled from the spec: quantize one element under a QuantizerSpec in a
given direction; u is the uniform draw consumed when the selected rounding
is stochastic.  A format of none returns the element unchanged. -/
def quantizeElem (spec : QuantizerSpec) (dir : Direction) (u x : ℚ) : ℚ :=
  match selFormat spec dir with
  | none => x
  | some F =>
    match selRounding spec dir with
    | RoundingMode.Nearest => quantizeNearest F x
    | RoundingMode.Stochastic => quantizeStochastic F u x

/-- Apply a draw-consuming elementwise function down a list, shifting the
draw stream by one position per element. -/
def mapWithDraws (f : ℚ → ℚ → ℚ) (us : ℕ → ℚ) : List ℚ → List ℚ
  | [] => []
  | x :: xs => f (us 0) x :: mapWithDraws f (fun i => us (i + 1)) xs

/-- Modelled from the spec: the public quantize contract of the Quantizer,
an elementwise map over the input array, consuming one independent uniform
draw per element when stochastic rounding is selected. -/
def quantizeArray (spec : QuantizerSpec) (dir : Direction) (us : ℕ → ℚ)
    (xs : List ℚ) : List ℚ :=
  mapWithDraws (quantizeElem spec dir) us xs

/-- Modelled from the spec: the per-parameter state held by the wrapped
base optimizer: the weight, an optional momentum buffer, and an optional
gradient accumulator. -/
structure ParamState where
  weight : ℚ
  momOpt : Option ℚ
  accOpt : Option ℚ
deriving DecidableEq, Repr

/-- Modelled from the spec: the native update rule of an arbitrary base
gradient-descent optimizer, taking the weight, the (already quantized)
gradient, and the optional momentum and accumulator buffers, and producing
the proposed new weight and updated buffers. -/
structure BaseOptimizer where
  update : ℚ → ℚ → Option ℚ → Option ℚ → ℚ × Option ℚ × Option ℚ

/-- A plain gradient-descent base rule with a fixed learning rate, as used
in the end-to-end optimizer scenario of the spec. -/
def plainGD (lr : ℚ) : BaseOptimizer :=
  ⟨fun w g m a => (w - lr * g, m, a)⟩

/-- Modelled from the spec: the PrecisionOptimizer (OptimLP in the
notebook) wraps a base optimizer together with four quantizer specs. -/
structure PrecisionOptimizer where
  base : BaseOptimizer
  weightQuant : QuantizerSpec
  gradQuant : QuantizerSpec
  momentumQuant : QuantizerSpec
  accQuant : QuantizerSpec

/-- The independent uniform draws consumed by the four quantization sites
of one parameter in one optimizer step. -/
structure StepDraws where
  ug : ℚ
  um : ℚ
  ua : ℚ
  uw : ℚ

/-- Modelled from the spec: one PrecisionOptimizer step on one parameter.
The gradient is quantized with gradQuant in the Backward direction before
the base update; after the base update the momentum buffer is quantized
with momentumQuant Forward, the accumulator with accQuant Forward, and the
proposed new weight with weightQuant Forward. -/
def stepParam (opt : PrecisionOptimizer) (d : StepDraws) (p : ParamState)
    (g : ℚ) : ParamState :=
  let gq := quantizeElem opt.gradQuant Direction.Backward d.ug g
  let r := opt.base.update p.weight gq p.momOpt p.accOpt
  { weight := quantizeElem opt.weightQuant Direction.Forward d.uw r.1
    momOpt := r.2.1.map (quantizeElem opt.momentumQuant Direction.Forward d.um)
    accOpt := r.2.2.map (quantizeElem opt.accQuant Direction.Forward d.ua) }

/-- Modelled from the spec: a full PrecisionOptimizer step processes every
parameter tensor independently, each with its own draws. -/
def stepAll (opt : PrecisionOptimizer) (ds : ℕ → StepDraws) :
    List (ParamState × ℚ) → List ParamState
  | [] => []
  | pg :: rest =>
    stepParam opt (ds 0) pg.1 pg.2 ::
      stepAll opt (fun i => ds (i + 1)) rest

/-- The two phases accepted by run_epoch in the notebook. -/
inductive Phase where
  | train
  | eval
deriving DecidableEq, Repr

/-- The external collaborators of run_epoch, abstracted: computing the
loss and the number of correct predictions of the current model on a
batch, the batch size, and the combined zero_grad-backward-step update of
the model and optimizer state performed in the train phase. -/
structure EpochOps (P B : Type) where
  lossOn : P → B → ℚ
  correctOn : P → B → ℕ
  sizeOn : B → ℕ
  updateOn : P → B → P

/-- The batch loop of run_epoch from the notebook: per batch it adds the
batch loss times the batch size to the loss sum, the correct count and the
batch size to their totals, and then, only in the train phase, performs
the optimizer update. -/
def runBatches {P B : Type} (ops : EpochOps P B) (phase : Phase) :
    P × ℚ × ℚ × ℚ → List B → P × ℚ × ℚ × ℚ
  | st, [] => st
  | st, b :: rest =>
    let lsum := st.2.1 + ops.lossOn st.1 b * (ops.sizeOn b : ℚ)
    let corr := st.2.2.1 + (ops.correctOn st.1 b : ℚ)
    let ttl := st.2.2.2 + (ops.sizeOn b : ℚ)
    let pnext := if phase = Phase.train then ops.updateOn st.1 b else st.1
    runBatches ops phase (pnext, lsum, corr, ttl) rest

/-- run_epoch from the notebook: runs the batch loop from the initial
state and returns the final model-and-optimizer state together with the
average loss and the accuracy percentage over all batches. -/
def run_epoch {P B : Type} (ops : EpochOps P B) (loader : List B) (p0 : P)
    (phase : Phase) : P × ℚ × ℚ :=
  let r := runBatches ops phase (p0, 0, 0, 0) loader
  (r.1, r.2.1 / r.2.2.2, r.2.2.1 / r.2.2.2 * 100)

/-- The 8-bit floating point format of the notebook, FloatingPoint with
five exponent bits and two mantissa bits. -/
def bit8 : NumberFormat := ⟨5, 2, 15, true⟩

/-- The 16-bit floating point format of the notebook, FloatingPoint with
six exponent bits and nine mantissa bits. -/
def bit16 : NumberFormat := ⟨6, 9, 31, true⟩

/-- The weight quantizer configured in the notebook: forward bit8 nearest,
backward identity. -/
def weight_quant : QuantizerSpec :=
  ⟨some bit8, none, RoundingMode.Nearest, RoundingMode.Nearest⟩

/-- The gradient quantizer configured in the notebook: forward bit8
nearest, backward identity with stochastic rounding selected. -/
def grad_quant : QuantizerSpec :=
  ⟨some bit8, none, RoundingMode.Nearest, RoundingMode.Stochastic⟩

/-- The momentum quantizer configured in the notebook. -/
def momentum_quant : QuantizerSpec :=
  ⟨some bit16, none, RoundingMode.Nearest, RoundingMode.Stochastic⟩

/-- The accumulator quantizer configured in the notebook. -/
def acc_quant : QuantizerSpec :=
  ⟨some bit16, none, RoundingMode.Nearest, RoundingMode.Nearest⟩

/-- The activation and error quantizer built per insertion site in the
notebook: bit8 nearest in both directions. -/
def act_error_quant : QuantizerSpec :=
  ⟨some bit8, some bit8, RoundingMode.Nearest, RoundingMode.Nearest⟩

lemma minExpF_le_maxExpF (F : NumberFormat) : minExpF F ≤ maxExpF F :=
  min_le_right _ _

lemma two_zpow_pos (z : ℤ) : (0 : ℚ) < 2 ^ z := zpow_pos (by norm_num) z

lemma two_zpow_mono {y z : ℤ} (h : y ≤ z) : (2 : ℚ) ^ y ≤ 2 ^ z :=
  zpow_le_zpow_right₀ (by norm_num) h

lemma minSubnormal_pos (F : NumberFormat) : 0 < minSubnormal F :=
  two_zpow_pos _

lemma one_le_two_sub (F : NumberFormat) :
    1 ≤ 2 - (2 : ℚ) ^ (-(F.mantissaBits : ℤ)) := by
  have h1 : (2 : ℚ) ^ (-(F.mantissaBits : ℤ)) ≤ 2 ^ (0 : ℤ) :=
    two_zpow_mono (by omega)
  rw [zpow_zero] at h1
  linarith

lemma maxNormal_pos (F : NumberFormat) : 0 < maxNormal F :=
  mul_pos (lt_of_lt_of_le one_pos (one_le_two_sub F)) (two_zpow_pos _)

lemma two_zpow_maxExp_le (F : NumberFormat) :
    (2 : ℚ) ^ maxExpF F ≤ maxNormal F :=
  le_mul_of_one_le_left (two_zpow_pos _).le (one_le_two_sub F)

lemma maxNormal_lt_two_zpow (F : NumberFormat) :
    maxNormal F < 2 ^ (maxExpF F + 1) := by
  have hp := two_zpow_pos (maxExpF F)
  have hs : (0 : ℚ) < 2 ^ (-(F.mantissaBits : ℤ)) := two_zpow_pos _
  rw [maxNormal, zpow_add₀ (by norm_num : (2 : ℚ) ≠ 0), zpow_one]
  nlinarith

lemma minSubnormal_le_maxNormal (F : NumberFormat) :
    minSubnormal F ≤ maxNormal F := by
  have h1 : minSubnormal F ≤ (2 : ℚ) ^ maxExpF F := by
    refine le_trans (two_zpow_mono ?_) (le_refl _)
    have := minExpF_le_maxExpF F
    omega
  exact le_trans h1 (two_zpow_maxExp_le F)

lemma maxNormal_eq_mul (F : NumberFormat) :
    maxNormal F =
      ((2 ^ (F.mantissaBits + 1) - 1 : ℤ) : ℚ) *
        2 ^ (maxExpF F - (F.mantissaBits : ℤ)) := by
  have h2 : (2 : ℚ) ≠ 0 := by norm_num
  have hm : ((2 ^ (F.mantissaBits + 1) - 1 : ℤ) : ℚ)
      = (2 : ℚ) ^ ((F.mantissaBits : ℤ) + 1) - 1 := by
    push_cast
    rw [← zpow_natCast (2 : ℚ) (F.mantissaBits + 1)]
    push_cast
    ring_nf
  have e1 : (2 : ℚ) * 2 ^ maxExpF F = 2 ^ (maxExpF F + 1) := by
    rw [zpow_add₀ h2, zpow_one, mul_comm]
  have e2 : (2 : ℚ) ^ (-(F.mantissaBits : ℤ)) * 2 ^ maxExpF F
      = 2 ^ (maxExpF F - (F.mantissaBits : ℤ)) := by
    rw [← zpow_add₀ h2]
    congr 1
    ring
  have e3 : (2 : ℚ) ^ ((F.mantissaBits : ℤ) + 1) *
        2 ^ (maxExpF F - (F.mantissaBits : ℤ)) = 2 ^ (maxExpF F + 1) := by
    rw [← zpow_add₀ h2]
    congr 1
    ring
  rw [maxNormal, hm, sub_mul, sub_mul, one_mul, e1, e2, e3]

lemma two_zpow_log_le {a : ℚ} (ha : 0 < a) : (2 : ℚ) ^ Int.log 2 a ≤ a := by
  have h := Int.zpow_log_le_self (show (1 : ℕ) < 2 by norm_num) ha
  norm_num at h
  exact h

lemma lt_two_zpow_log (a : ℚ) : a < (2 : ℚ) ^ (Int.log 2 a + 1) := by
  have h := Int.lt_zpow_succ_log_self (show (1 : ℕ) < 2 by norm_num) a
  norm_num at h
  exact h

lemma int_log2_eq {a : ℚ} {E : ℤ} (h1 : (2 : ℚ) ^ E ≤ a)
    (h2 : a < 2 ^ (E + 1)) : Int.log 2 a = E := by
  have ha : 0 < a := lt_of_lt_of_le (two_zpow_pos E) h1
  have hle : E ≤ Int.log 2 a := by
    rw [← Int.zpow_le_iff_le_log (show (1 : ℕ) < 2 by norm_num) ha]
    norm_num
    exact h1
  have hlt : Int.log 2 a < E + 1 := by
    rw [← Int.lt_zpow_iff_log_lt (show (1 : ℕ) < 2 by norm_num) ha]
    norm_num
    exact h2
  omega

lemma binadeExp_ge (F : NumberFormat) (a : ℚ) : minExpF F ≤ binadeExp F a :=
  le_min (minExpF_le_maxExpF F) (le_max_left _ _)

lemma binadeExp_le (F : NumberFormat) (a : ℚ) : binadeExp F a ≤ maxExpF F :=
  min_le_left _ _

lemma gridStep_pos (F : NumberFormat) (a : ℚ) : 0 < gridStep F a :=
  two_zpow_pos _

lemma minSubnormal_le_gridStep (F : NumberFormat) (a : ℚ) :
    minSubnormal F ≤ gridStep F a := by
  have := binadeExp_ge F a
  exact two_zpow_mono (by omega)

lemma gridStep_le_self (F : NumberFormat) {a : ℚ} (h1 : minSubnormal F ≤ a) :
    gridStep F a ≤ a := by
  have ha : 0 < a := lt_of_lt_of_le (minSubnormal_pos F) h1
  rcases le_or_lt (Int.log 2 a) (minExpF F) with hc | hc
  · have hE : binadeExp F a = minExpF F := by
      rw [binadeExp, max_eq_left hc, min_eq_right (minExpF_le_maxExpF F)]
    rw [gridStep, hE]
    exact h1
  · have hE : binadeExp F a ≤ Int.log 2 a := by
      rw [binadeExp, max_eq_right hc.le]
      exact min_le_right _ _
    have h3 : gridStep F a ≤ 2 ^ Int.log 2 a := by
      rw [gridStep]
      exact two_zpow_mono (by omega)
    exact le_trans h3 (two_zpow_log_le ha)

lemma lt_two_zpow_succ_binade (F : NumberFormat) {a : ℚ}
    (hE : binadeExp F a < maxExpF F) : a < 2 ^ (binadeExp F a + 1) := by
  rw [binadeExp] at hE ⊢
  rcases le_total (max (minExpF F) (Int.log 2 a)) (maxExpF F) with h | h
  · rw [min_eq_right h] at hE ⊢
    have h1 : Int.log 2 a ≤ max (minExpF F) (Int.log 2 a) := le_max_right _ _
    exact lt_of_lt_of_le (lt_two_zpow_log a) (two_zpow_mono (by omega))
  · rw [min_eq_left h] at hE
    exact absurd hE (lt_irrefl _)

lemma lowerB_le_self (F : NumberFormat) (a : ℚ) : lowerB F a ≤ a := by
  have hs := gridStep_pos F a
  have h1 : ((gridIndex F a : ℚ)) ≤ a / gridStep F a := Int.floor_le _
  have h2 := mul_le_mul_of_nonneg_right h1 hs.le
  rw [div_mul_cancel₀ _ hs.ne'] at h2
  exact h2

lemma lt_upperB_self (F : NumberFormat) (a : ℚ) : a < upperB F a := by
  have hs := gridStep_pos F a
  have h1 : a / gridStep F a < (gridIndex F a : ℚ) + 1 :=
    Int.lt_floor_add_one _
  have h2 := mul_lt_mul_of_pos_right h1 hs
  rw [div_mul_cancel₀ _ hs.ne', add_mul, one_mul] at h2
  rw [upperB, lowerB]
  exact h2

lemma self_eq_lower_add_frac (F : NumberFormat) (a : ℚ) :
    a = lowerB F a + gridFrac F a * gridStep F a := by
  have hs := gridStep_pos F a
  have h1 : (gridIndex F a : ℚ) + Int.fract (a / gridStep F a)
      = a / gridStep F a := Int.floor_add_fract _
  calc a = a / gridStep F a * gridStep F a := (div_mul_cancel₀ a hs.ne').symm
  _ = ((gridIndex F a : ℚ) + Int.fract (a / gridStep F a)) * gridStep F a := by
      rw [h1]
  _ = lowerB F a + gridFrac F a * gridStep F a := by
      rw [lowerB, gridFrac]
      ring

lemma gridFrac_nonneg (F : NumberFormat) (a : ℚ) : 0 ≤ gridFrac F a :=
  Int.fract_nonneg _

lemma gridFrac_lt_one (F : NumberFormat) (a : ℚ) : gridFrac F a < 1 :=
  Int.fract_lt_one _

lemma gridIndex_pos (F : NumberFormat) {a : ℚ} (h1 : minSubnormal F ≤ a) :
    1 ≤ gridIndex F a := by
  have hs := gridStep_pos F a
  rw [gridIndex, Int.le_floor]
  push_cast
  rw [le_div_iff₀ hs, one_mul]
  exact gridStep_le_self F h1

lemma gridFrac_eq (F : NumberFormat) (a : ℚ) :
    gridFrac F a = a / gridStep F a - (gridIndex F a : ℚ) := rfl

lemma in_range_lt_two_zpow (F : NumberFormat) {a : ℚ}
    (h2 : a ≤ maxNormal F) : a < 2 ^ (binadeExp F a + 1) := by
  rcases lt_or_eq_of_le (binadeExp_le F a) with hE | hE
  · exact lt_two_zpow_succ_binade F hE
  · rw [hE]
    exact lt_of_le_of_lt h2 (maxNormal_lt_two_zpow F)

lemma two_zpow_succ_binade_eq (F : NumberFormat) (a : ℚ) :
    (2 : ℚ) ^ (binadeExp F a + 1) =
      ((2 ^ (F.mantissaBits + 1) : ℤ) : ℚ) * gridStep F a := by
  rw [gridStep]
  push_cast
  rw [← zpow_natCast (2 : ℚ) (F.mantissaBits + 1),
    ← zpow_add₀ (by norm_num : (2 : ℚ) ≠ 0)]
  congr 1
  push_cast
  ring

lemma upperB_le_bounds (F : NumberFormat) {a : ℚ} (h1 : minSubnormal F ≤ a)
    (h2 : a ≤ maxNormal F) (hfrac : gridFrac F a ≠ 0) :
    upperB F a ≤ 2 ^ (binadeExp F a + 1) ∧ upperB F a ≤ maxNormal F := by
  have hs := gridStep_pos F a
  rcases lt_or_eq_of_le (binadeExp_le F a) with hE | hE
  · have haU : a < 2 ^ (binadeExp F a + 1) := lt_two_zpow_succ_binade F hE
    have h4 : a / gridStep F a < ((2 ^ (F.mantissaBits + 1) : ℤ) : ℚ) := by
      rw [div_lt_iff₀ hs]
      rw [two_zpow_succ_binade_eq F a] at haU
      exact haU
    have h5 : (gridIndex F a : ℚ) < ((2 ^ (F.mantissaBits + 1) : ℤ) : ℚ) :=
      lt_of_le_of_lt (Int.floor_le _) h4
    have hidx : gridIndex F a + 1 ≤ 2 ^ (F.mantissaBits + 1) := by
      have h5i : gridIndex F a < 2 ^ (F.mantissaBits + 1) := by exact_mod_cast h5
      omega
    have h6 : upperB F a ≤ (2 : ℚ) ^ (binadeExp F a + 1) := by
      rw [upperB, lowerB, two_zpow_succ_binade_eq F a]
      have h7 : ((gridIndex F a : ℚ) + 1) ≤ ((2 ^ (F.mantissaBits + 1) : ℤ) : ℚ) := by
        exact_mod_cast hidx
      nlinarith
    refine ⟨h6, le_trans h6 ?_⟩
    exact le_trans (two_zpow_mono (by omega)) (two_zpow_maxExp_le F)
  · have hmn : maxNormal F =
        ((2 ^ (F.mantissaBits + 1) - 1 : ℤ) : ℚ) * gridStep F a := by
      rw [maxNormal_eq_mul, gridStep, hE]
    have h4 : a / gridStep F a ≤ ((2 ^ (F.mantissaBits + 1) - 1 : ℤ) : ℚ) := by
      rw [div_le_iff₀ hs]
      rw [hmn] at h2
      exact h2
    have hidx : gridIndex F a ≤ 2 ^ (F.mantissaBits + 1) - 1 := by
      have h5 : gridIndex F a ≤ ⌊((2 ^ (F.mantissaBits + 1) - 1 : ℤ) : ℚ)⌋ :=
        Int.floor_mono h4
      rw [Int.floor_intCast] at h5
      exact h5
    have hne : gridIndex F a ≠ 2 ^ (F.mantissaBits + 1) - 1 := by
      intro he
      apply hfrac
      have hcast : (gridIndex F a : ℚ) = ((2 ^ (F.mantissaBits + 1) - 1 : ℤ) : ℚ) := by
        exact_mod_cast he
      have hle0 : gridFrac F a ≤ 0 := by
        rw [gridFrac_eq, hcast]
        linarith
      exact le_antisymm hle0 (gridFrac_nonneg F a)
    have hidx2 : gridIndex F a + 1 ≤ 2 ^ (F.mantissaBits + 1) - 1 := by omega
    have h8 : upperB F a ≤ maxNormal F := by
      rw [upperB, lowerB, hmn]
      have h7 : ((gridIndex F a : ℚ) + 1) ≤
          ((2 ^ (F.mantissaBits + 1) - 1 : ℤ) : ℚ) := by exact_mod_cast hidx2
      nlinarith
    refine ⟨?_, h8⟩
    refine le_trans h8 (le_of_lt ?_)
    rw [hE]
    exact maxNormal_lt_two_zpow F

lemma binadeExp_of_zpow (F : NumberFormat) {E : ℤ} (hE1 : minExpF F ≤ E)
    (hE2 : E ≤ maxExpF F) : binadeExp F ((2 : ℚ) ^ E) = E := by
  have hc : ((2 : ℕ) : ℚ) = 2 := by norm_num
  have hlog : Int.log 2 ((2 : ℚ) ^ E) = E := by
    rw [← hc]
    exact Int.log_zpow (by norm_num) E
  rw [binadeExp, hlog, max_eq_right hE1, min_eq_right hE2]

lemma on_grid_of_mul (F : NumberFormat) {E k : ℤ}
    (hE1 : minExpF F ≤ E) (hE2 : E ≤ maxExpF F) (hk1 : 1 ≤ k)
    (hle : (k : ℚ) * 2 ^ (E - (F.mantissaBits : ℤ)) ≤ 2 ^ (E + 1))
    (hmax : (k : ℚ) * 2 ^ (E - (F.mantissaBits : ℤ)) ≤ maxNormal F) :
    ∃ j : ℤ, (k : ℚ) * 2 ^ (E - (F.mantissaBits : ℤ)) =
      (j : ℚ) * gridStep F ((k : ℚ) * 2 ^ (E - (F.mantissaBits : ℤ))) := by
  have h2 : (2 : ℚ) ≠ 0 := by norm_num
  have hsp := two_zpow_pos (E - (F.mantissaBits : ℤ))
  have hvpos : (0 : ℚ) < (k : ℚ) * 2 ^ (E - (F.mantissaBits : ℤ)) := by
    have : (0 : ℚ) < (k : ℚ) := by exact_mod_cast hk1
    positivity
  have hkle : k ≤ 2 ^ (F.mantissaBits + 1) := by
    have hsplit : (2 : ℚ) ^ (E + 1) =
        ((2 ^ (F.mantissaBits + 1) : ℤ) : ℚ) * 2 ^ (E - (F.mantissaBits : ℤ)) := by
      push_cast
      rw [← zpow_natCast (2 : ℚ) (F.mantissaBits + 1), ← zpow_add₀ h2]
      congr 1
      push_cast
      ring
    rw [hsplit] at hle
    have := (mul_le_mul_right hsp).mp hle
    exact_mod_cast this
  rcases lt_or_eq_of_le hkle with hlt | heq
  · -- the value stays strictly inside the binade of exponent E
    have hvlt : (k : ℚ) * 2 ^ (E - (F.mantissaBits : ℤ)) < 2 ^ (E + 1) := by
      have hsplit : (2 : ℚ) ^ (E + 1) =
          ((2 ^ (F.mantissaBits + 1) : ℤ) : ℚ) * 2 ^ (E - (F.mantissaBits : ℤ)) := by
        push_cast
        rw [← zpow_natCast (2 : ℚ) (F.mantissaBits + 1), ← zpow_add₀ h2]
        congr 1
        push_cast
        ring
      rw [hsplit]
      have hq : (k : ℚ) < ((2 ^ (F.mantissaBits + 1) : ℤ) : ℚ) := by exact_mod_cast hlt
      exact (mul_lt_mul_right hsp).mpr hq
    have hlog : Int.log 2 ((k : ℚ) * 2 ^ (E - (F.mantissaBits : ℤ))) ≤ E := by
      have h3 : Int.log 2 ((k : ℚ) * 2 ^ (E - (F.mantissaBits : ℤ))) < E + 1 := by
        rw [← Int.lt_zpow_iff_log_lt (show (1 : ℕ) < 2 by norm_num) hvpos]
        norm_num
        exact hvlt
      omega
    have hEp : binadeExp F ((k : ℚ) * 2 ^ (E - (F.mantissaBits : ℤ))) ≤ E := by
      rw [binadeExp]
      omega
    have hEp2 : minExpF F ≤ binadeExp F ((k : ℚ) * 2 ^ (E - (F.mantissaBits : ℤ))) :=
      binadeExp_ge F _
    refine ⟨k * 2 ^ (E - binadeExp F ((k : ℚ) * 2 ^ (E - (F.mantissaBits : ℤ)))).toNat, ?_⟩
    rw [gridStep]
    push_cast
    rw [← zpow_natCast (2 : ℚ)
      (E - binadeExp F ((k : ℚ) * 2 ^ (E - (F.mantissaBits : ℤ)))).toNat]
    rw [Int.toNat_of_nonneg (by omega)]
    rw [mul_assoc, ← zpow_add₀ h2]
    congr 2
    ring
  · -- the value is exactly the binade boundary two to the power E plus one
    have hval : (k : ℚ) * 2 ^ (E - (F.mantissaBits : ℤ)) = 2 ^ (E + 1) := by
      have hq : (k : ℚ) = ((2 ^ (F.mantissaBits + 1) : ℤ) : ℚ) := by exact_mod_cast heq
      rw [hq]
      push_cast
      rw [← zpow_natCast (2 : ℚ) (F.mantissaBits + 1), ← zpow_add₀ h2]
      congr 1
      push_cast
      ring
    have hEtop : E + 1 ≤ maxExpF F := by
      by_contra hc
      have hEeq : E = maxExpF F := by omega
      rw [hval, hEeq] at hmax
      exact absurd hmax (not_le.mpr (maxNormal_lt_two_zpow F))
    refine ⟨2 ^ F.mantissaBits, ?_⟩
    rw [hval, gridStep, binadeExp_of_zpow F (by omega) hEtop]
    push_cast
    rw [← zpow_natCast (2 : ℚ) F.mantissaBits, ← zpow_add₀ h2]
    congr 1
    push_cast
    ring

lemma representable_neg (F : NumberFormat) {v : ℚ} (h : Representable F v) :
    Representable F (-v) := by
  rcases h with h0 | hr
  · exact Or.inl (by rw [h0, neg_zero])
  · exact Or.inr (by rwa [abs_neg])

lemma signQ_mul_abs {v : ℚ} (hv : v ≠ 0) : signQ v * |v| = v := by
  rw [signQ]
  rcases lt_trichotomy 0 v with h | h | h
  · rw [if_pos h, one_mul, abs_of_pos h]
  · exact absurd h.symm hv
  · rw [if_neg (by linarith), abs_of_neg h]
    ring

lemma representable_signQ_mul (F : NumberFormat) (x : ℚ) {w : ℚ}
    (h : Representable F w) : Representable F (signQ x * w) := by
  rw [signQ]
  by_cases hx : 0 < x
  · rw [if_pos hx, one_mul]
    exact h
  · rw [if_neg hx, neg_one_mul]
    exact representable_neg F h

lemma representable_maxNormal (F : NumberFormat) :
    Representable F (maxNormal F) := by
  have habs : |maxNormal F| = maxNormal F := abs_of_pos (maxNormal_pos F)
  have hlog : Int.log 2 (maxNormal F) = maxExpF F :=
    int_log2_eq (two_zpow_maxExp_le F) (maxNormal_lt_two_zpow F)
  have hbin : binadeExp F (maxNormal F) = maxExpF F := by
    rw [binadeExp, hlog, max_eq_right (minExpF_le_maxExpF F), min_self]
  refine Or.inr ⟨?_, ?_, ?_⟩
  · rw [habs]
    exact minSubnormal_le_maxNormal F
  · rw [habs]
  · rw [habs]
    refine ⟨2 ^ (F.mantissaBits + 1) - 1, ?_⟩
    rw [gridStep, hbin]
    exact maxNormal_eq_mul F

lemma representable_lowerB (F : NumberFormat) {a : ℚ}
    (h1 : minSubnormal F ≤ a) (h2 : a ≤ maxNormal F) :
    Representable F (lowerB F a) := by
  have hs := gridStep_pos F a
  have hk1 : 1 ≤ gridIndex F a := gridIndex_pos F h1
  have hk1q : (1 : ℚ) ≤ (gridIndex F a : ℚ) := by exact_mod_cast hk1
  have hpos : 0 < lowerB F a := by
    rw [lowerB]
    nlinarith
  have habs : |lowerB F a| = lowerB F a := abs_of_pos hpos
  have hlow_le : lowerB F a ≤ a := lowerB_le_self F a
  have hle2 : lowerB F a ≤ 2 ^ (binadeExp F a + 1) :=
    le_of_lt (lt_of_le_of_lt hlow_le (in_range_lt_two_zpow F h2))
  have hmax : lowerB F a ≤ maxNormal F := le_trans hlow_le h2
  have hgrid := on_grid_of_mul F (binadeExp_ge F a) (binadeExp_le F a) hk1
    (by rw [← gridStep, ← lowerB]; exact hle2)
    (by rw [← gridStep, ← lowerB]; exact hmax)
  refine Or.inr ⟨?_, ?_, ?_⟩
  · rw [habs]
    calc minSubnormal F ≤ gridStep F a := minSubnormal_le_gridStep F a
    _ ≤ lowerB F a := by
        rw [lowerB]
        nlinarith
  · rw [habs]
    exact hmax
  · rw [habs]
    obtain ⟨j, hj⟩ := hgrid
    rw [← gridStep, ← lowerB] at hj
    exact ⟨j, hj⟩

lemma representable_upperB (F : NumberFormat) {a : ℚ}
    (h1 : minSubnormal F ≤ a) (h2 : a ≤ maxNormal F)
    (hfrac : gridFrac F a ≠ 0) : Representable F (upperB F a) := by
  have ha : 0 < a := lt_of_lt_of_le (minSubnormal_pos F) h1
  have hk1 : 1 ≤ gridIndex F a := gridIndex_pos F h1
  obtain ⟨hU1, hU2⟩ := upperB_le_bounds F h1 h2 hfrac
  have hupper_eq : upperB F a = ((gridIndex F a + 1 : ℤ) : ℚ) * gridStep F a := by
    rw [upperB, lowerB]
    push_cast
    ring
  have hpos : 0 < upperB F a := lt_trans ha (lt_upperB_self F a)
  have habs : |upperB F a| = upperB F a := abs_of_pos hpos
  have hgrid := on_grid_of_mul F (binadeExp_ge F a) (binadeExp_le F a)
    (show 1 ≤ gridIndex F a + 1 by omega)
    (by rw [← gridStep, ← hupper_eq]; exact hU1)
    (by rw [← gridStep, ← hupper_eq]; exact hU2)
  refine Or.inr ⟨?_, ?_, ?_⟩
  · rw [habs]
    exact le_trans h1 (le_of_lt (lt_upperB_self F a))
  · rw [habs]
    exact hU2
  · rw [habs]
    obtain ⟨j, hj⟩ := hgrid
    rw [← gridStep, ← hupper_eq] at hj
    exact ⟨j, hj⟩

lemma representable_quantizeScalar (F : NumberFormat) (pick : ℤ → ℚ → Bool)
    (hpick : ∀ n, pick n 0 = false) (x : ℚ) :
    Representable F (quantizeScalar F pick x) := by
  rw [quantizeScalar]
  by_cases h0 : x = 0
  · rw [if_pos h0]
    exact Or.inl rfl
  rw [if_neg h0]
  by_cases hsat : maxNormal F < |x|
  · rw [if_pos hsat]
    exact representable_signQ_mul F x (representable_maxNormal F)
  rw [if_neg hsat]
  by_cases hflush : |x| < minSubnormal F
  · rw [if_pos hflush]
    exact Or.inl rfl
  rw [if_neg hflush]
  have h1 : minSubnormal F ≤ |x| := not_lt.mp hflush
  have h2 : |x| ≤ maxNormal F := not_lt.mp hsat
  by_cases hp : pick (gridIndex F |x|) (gridFrac F |x|)
  · rw [if_pos hp]
    have hfr : gridFrac F |x| ≠ 0 := by
      intro hz
      rw [hz, hpick] at hp
      exact Bool.false_ne_true hp
    exact representable_signQ_mul F x (representable_upperB F h1 h2 hfr)
  · rw [if_neg hp]
    exact representable_signQ_mul F x (representable_lowerB F h1 h2)

lemma quantizeScalar_fixed (F : NumberFormat) (pick : ℤ → ℚ → Bool)
    (hpick : ∀ n, pick n 0 = false) {v : ℚ} (hrep : Representable F v) :
    quantizeScalar F pick v = v := by
  rcases hrep with h0 | ⟨hlo, hhi, k, hk⟩
  · rw [h0, quantizeScalar, if_pos rfl]
  · have hvne : v ≠ 0 := by
      intro h
      rw [h, abs_zero] at hlo
      exact absurd hlo (not_le.mpr (minSubnormal_pos F))
    have hs := gridStep_pos F |v|
    have hdiv : |v| / gridStep F |v| = (k : ℚ) := by
      nth_rewrite 1 [hk]
      exact mul_div_cancel_right₀ _ hs.ne'
    have hidx : gridIndex F |v| = k := by
      rw [gridIndex, hdiv, Int.floor_intCast]
    have hfr : gridFrac F |v| = 0 := by
      rw [gridFrac, hdiv, Int.fract_intCast]
    rw [quantizeScalar, if_neg hvne, if_neg (not_lt.mpr hhi),
      if_neg (not_lt.mpr hlo), hidx, hfr, hpick, if_neg Bool.false_ne_true]
    rw [lowerB, hidx, ← hk]
    exact signQ_mul_abs hvne

lemma nearestPick_zero (n : ℤ) : nearestPick n 0 = false := by
  rw [nearestPick]
  norm_num

lemma stochasticPick_zero {u : ℚ} (hu : 0 ≤ u) (n : ℤ) :
    stochasticPick u n 0 = false := by
  rw [stochasticPick]
  exact decide_eq_false (not_lt.mpr hu)

lemma quantizeScalar_in_range (F : NumberFormat) (pick : ℤ → ℚ → Bool)
    {x : ℚ} (h1 : minSubnormal F ≤ |x|) (h2 : |x| ≤ maxNormal F) :
    quantizeScalar F pick x =
      if pick (gridIndex F |x|) (gridFrac F |x|) then signQ x * upperB F |x|
      else signQ x * lowerB F |x| := by
  have hx : x ≠ 0 := by
    intro h
    rw [h, abs_zero] at h1
    exact absurd h1 (not_le.mpr (minSubnormal_pos F))
  rw [quantizeScalar, if_neg hx, if_neg (not_lt.mpr h2), if_neg (not_lt.mpr h1)]

lemma abs_quantizeScalar_le (F : NumberFormat) (pick : ℤ → ℚ → Bool)
    (hpick : ∀ n, pick n 0 = false) (x : ℚ) :
    |quantizeScalar F pick x| ≤ maxNormal F := by
  rcases representable_quantizeScalar F pick hpick x with h0 | ⟨h1, h2, h3⟩
  · rw [h0, abs_zero]
    exact (maxNormal_pos F).le
  · exact h2

/-- C2: for every input element and every NumberFormat the magnitude of the
quantized output is at most maxNormal of the format; a magnitude above
maxNormal saturates to the signed maxNormal (not to infinity) and a
magnitude below minSubnormal flushes to zero, under both rounding modes. -/
theorem C2_range_saturation (F : NumberFormat) (x u : ℚ) (hu : 0 ≤ u) :
    |quantizeNearest F x| ≤ maxNormal F ∧
    |quantizeStochastic F u x| ≤ maxNormal F ∧
    (maxNormal F < |x| →
      quantizeNearest F x = signQ x * maxNormal F ∧
      quantizeStochastic F u x = signQ x * maxNormal F) ∧
    (|x| < minSubnormal F →
      quantizeNearest F x = 0 ∧ quantizeStochastic F u x = 0) := by
  have hx0 : maxNormal F < |x| → x ≠ 0 := by
    intro h hx
    rw [hx, abs_zero] at h
    exact absurd h (not_lt.mpr (maxNormal_pos F).le)
  refine ⟨?_, ?_, ?_, ?_⟩
  · exact abs_quantizeScalar_le F nearestPick nearestPick_zero x
  · exact abs_quantizeScalar_le F (stochasticPick u) (stochasticPick_zero hu) x
  · intro h
    constructor
    · rw [quantizeNearest, quantizeScalar, if_neg (hx0 h), if_pos h]
    · rw [quantizeStochastic, quantizeScalar, if_neg (hx0 h), if_pos h]
  · intro h
    by_cases hx : x = 0
    · constructor
      · rw [quantizeNearest, quantizeScalar, if_pos hx]
      · rw [quantizeStochastic, quantizeScalar, if_pos hx]
    · have hns : ¬ maxNormal F < |x| :=
        not_lt.mpr (le_of_lt (lt_of_lt_of_le h (minSubnormal_le_maxNormal F)))
      constructor
      · rw [quantizeNearest, quantizeScalar, if_neg hx, if_neg hns, if_pos h]
      · rw [quantizeStochastic, quantizeScalar, if_neg hx, if_neg hns, if_pos h]

/-- C6: a value that is already representable in format F is returned
unchanged by quantize under both rounding modes, and quantize is
idempotent on every input under both modes. -/
theorem C6_idempotent (F : NumberFormat) (v x u uu uo : ℚ)
    (hrep : Representable F v) (hu : 0 ≤ u) (huu : 0 ≤ uu) (huo : 0 ≤ uo) :
    quantizeNearest F v = v ∧
    quantizeStochastic F u v = v ∧
    quantizeNearest F (quantizeNearest F x) = quantizeNearest F x ∧
    quantizeStochastic F uu (quantizeStochastic F uo x) =
      quantizeStochastic F uo x := by
  refine ⟨?_, ?_, ?_, ?_⟩
  · exact quantizeScalar_fixed F nearestPick nearestPick_zero hrep
  · exact quantizeScalar_fixed F (stochasticPick u) (stochasticPick_zero hu) hrep
  · exact quantizeScalar_fixed F nearestPick nearestPick_zero
      (representable_quantizeScalar F nearestPick nearestPick_zero x)
  · exact quantizeScalar_fixed F (stochasticPick uu) (stochasticPick_zero huu)
      (representable_quantizeScalar F (stochasticPick uo)
        (stochasticPick_zero huo) x)

lemma sub_lowerB_eq (F : NumberFormat) (a : ℚ) :
    a - lowerB F a = gridFrac F a * gridStep F a := by
  linear_combination self_eq_lower_add_frac F a

lemma upperB_sub_eq (F : NumberFormat) (a : ℚ) :
    upperB F a - a = (1 - gridFrac F a) * gridStep F a := by
  rw [upperB]
  linear_combination (-1 : ℚ) * self_eq_lower_add_frac F a

/-- C3: under nearest rounding, every in-range input is mapped to the
closer of the two bracketing representable values, and an input exactly
halfway between them is mapped to the bracket whose grid index (its last
mantissa bit) is even; the brackets are themselves representable. -/
theorem C3_nearest_correct (F : NumberFormat) (x : ℚ)
    (h1 : minSubnormal F ≤ |x|) (h2 : |x| ≤ maxNormal F) :
    (lowerB F |x| ≤ |x| ∧ |x| < upperB F |x|) ∧
    Representable F (lowerB F |x|) ∧
    (gridFrac F |x| ≠ 0 → Representable F (upperB F |x|)) ∧
    (|x| - lowerB F |x| < upperB F |x| - |x| →
      quantizeNearest F x = signQ x * lowerB F |x|) ∧
    (upperB F |x| - |x| < |x| - lowerB F |x| →
      quantizeNearest F x = signQ x * upperB F |x|) ∧
    (|x| - lowerB F |x| = upperB F |x| - |x| →
      quantizeNearest F x =
        signQ x *
          (if gridIndex F |x| % 2 = 0 then lowerB F |x| else upperB F |x|)) := by
  have hs := gridStep_pos F |x|
  have hd1 := sub_lowerB_eq F |x|
  have hd2 := upperB_sub_eq F |x|
  refine ⟨⟨lowerB_le_self F |x|, lt_upperB_self F |x|⟩,
    representable_lowerB F h1 h2,
    fun hfr => representable_upperB F h1 h2 hfr, ?_, ?_, ?_⟩
  · intro hlt
    rw [hd1, hd2] at hlt
    have hf : gridFrac F |x| < 1 / 2 := by nlinarith
    have hpickf : nearestPick (gridIndex F |x|) (gridFrac F |x|) = false := by
      rw [nearestPick, if_neg (by linarith), if_neg (ne_of_lt hf)]
    rw [quantizeNearest, quantizeScalar_in_range F nearestPick h1 h2, hpickf,
      if_neg Bool.false_ne_true]
  · intro hgt
    rw [hd1, hd2] at hgt
    have hf : 1 / 2 < gridFrac F |x| := by nlinarith
    have hpickt : nearestPick (gridIndex F |x|) (gridFrac F |x|) = true := by
      rw [nearestPick, if_pos hf]
    rw [quantizeNearest, quantizeScalar_in_range F nearestPick h1 h2, hpickt,
      if_pos rfl]
  · intro heq
    rw [hd1, hd2] at heq
    have hf : gridFrac F |x| = 1 / 2 := by nlinarith
    by_cases he : gridIndex F |x| % 2 = 0
    · have hpickf : nearestPick (gridIndex F |x|) (gridFrac F |x|) = false := by
        rw [nearestPick, if_neg (by rw [hf]; exact lt_irrefl _), if_pos hf]
        exact decide_eq_false (by omega)
      rw [quantizeNearest, quantizeScalar_in_range F nearestPick h1 h2, hpickf,
        if_neg Bool.false_ne_true, if_pos he]
    · have hpickt : nearestPick (gridIndex F |x|) (gridFrac F |x|) = true := by
        rw [nearestPick, if_neg (by rw [hf]; exact lt_irrefl _), if_pos hf]
        exact decide_eq_true (by omega)
      rw [quantizeNearest, quantizeScalar_in_range F nearestPick h1 h2, hpickt,
        if_pos rfl, if_neg he]

/-- C5: under stochastic rounding, an in-range input rounds up exactly
when the uniform draw falls below the normalized distance d to the lower
bracket, so the lower bracket is returned with probability one minus d and
the upper with probability d, and the resulting expected value equals the
input exactly. -/
theorem C5_stochastic_unbiased (F : NumberFormat) (x u : ℚ)
    (h1 : minSubnormal F ≤ |x|) (h2 : |x| ≤ maxNormal F)
    (hu0 : 0 ≤ u) (hu1 : u < 1) :
    lowerB F |x| ≤ |x| ∧ |x| < upperB F |x| ∧
    quantizeStochastic F u x =
      (if u < (|x| - lowerB F |x|) / (upperB F |x| - lowerB F |x|)
        then signQ x * upperB F |x| else signQ x * lowerB F |x|) ∧
    (1 - (|x| - lowerB F |x|) / (upperB F |x| - lowerB F |x|)) *
        (signQ x * lowerB F |x|) +
      ((|x| - lowerB F |x|) / (upperB F |x| - lowerB F |x|)) *
        (signQ x * upperB F |x|) = x := by
  have hx : x ≠ 0 := by
    intro h
    rw [h, abs_zero] at h1
    exact absurd h1 (not_le.mpr (minSubnormal_pos F))
  have hs := gridStep_pos F |x|
  have hUL : upperB F |x| - lowerB F |x| = gridStep F |x| := by
    rw [upperB]
    ring
  have hdf : (|x| - lowerB F |x|) / (upperB F |x| - lowerB F |x|)
      = gridFrac F |x| := by
    rw [hUL, sub_lowerB_eq F |x|]
    exact mul_div_cancel_right₀ _ hs.ne'
  refine ⟨lowerB_le_self F |x|, lt_upperB_self F |x|, ?_, ?_⟩
  · rw [hdf, quantizeStochastic, quantizeScalar_in_range F _ h1 h2]
    simp only [stochasticPick, decide_eq_true_eq]
  · rw [hdf]
    have ha := self_eq_lower_add_frac F |x|
    calc (1 - gridFrac F |x|) * (signQ x * lowerB F |x|) +
        gridFrac F |x| * (signQ x * upperB F |x|)
        = signQ x * (lowerB F |x| + gridFrac F |x| * gridStep F |x|) := by
          rw [upperB]
          ring
    _ = signQ x * |x| := by rw [← ha]
    _ = x := signQ_mul_abs hx

lemma mapWithDraws_id (f : ℚ → ℚ → ℚ) (hf : ∀ u x, f u x = x) :
    ∀ (us : ℕ → ℚ) (xs : List ℚ), mapWithDraws f us xs = xs := by
  intro us xs
  induction xs generalizing us with
  | nil => rw [mapWithDraws]
  | cons x rest ih => rw [mapWithDraws, hf, ih]

lemma mapWithDraws_length (f : ℚ → ℚ → ℚ) :
    ∀ (us : ℕ → ℚ) (xs : List ℚ), (mapWithDraws f us xs).length = xs.length := by
  intro us xs
  induction xs generalizing us with
  | nil => rw [mapWithDraws]
  | cons x rest ih =>
    rw [mapWithDraws, List.length_cons, List.length_cons, ih]

lemma mapWithDraws_getElem (f : ℚ → ℚ → ℚ) :
    ∀ (us : ℕ → ℚ) (xs : List ℚ) (i : ℕ),
      (mapWithDraws f us xs)[i]? = (xs[i]?).map (f (us i)) := by
  intro us xs
  induction xs generalizing us with
  | nil =>
    intro i
    rw [mapWithDraws]
    rfl
  | cons x rest ih =>
    intro i
    rw [mapWithDraws]
    cases i with
    | zero =>
      rw [List.getElem?_cons_zero, List.getElem?_cons_zero]
      rfl
    | succ n =>
      rw [List.getElem?_cons_succ, List.getElem?_cons_succ]
      exact ih (fun j => us (j + 1)) n

lemma mapWithDraws_congr (f g : ℚ → ℚ → ℚ) (hfg : ∀ u v x, f u x = g v x) :
    ∀ (us vs : ℕ → ℚ) (xs : List ℚ),
      mapWithDraws f us xs = mapWithDraws g vs xs := by
  intro us vs xs
  induction xs generalizing us vs with
  | nil => rw [mapWithDraws, mapWithDraws]
  | cons x rest ih => rw [mapWithDraws, mapWithDraws, hfg (us 0) (vs 0) x, ih]

/-- C4: a direction whose configured format is none passes the input
array through unchanged, whatever the rounding mode configured for that
direction; this holds for the forward and the backward direction. -/
theorem C4_identity_passthrough (spec : QuantizerSpec) (us : ℕ → ℚ)
    (xs : List ℚ) :
    (spec.forwardFormat = none →
      quantizeArray spec Direction.Forward us xs = xs) ∧
    (spec.backwardFormat = none →
      quantizeArray spec Direction.Backward us xs = xs) := by
  constructor
  · intro h
    refine mapWithDraws_id _ ?_ us xs
    intro u x
    rw [quantizeElem]
    have hsel : selFormat spec Direction.Forward = none := h
    rw [hsel]
  · intro h
    refine mapWithDraws_id _ ?_ us xs
    intro u x
    rw [quantizeElem]
    have hsel : selFormat spec Direction.Backward = none := h
    rw [hsel]

lemma quantizeElem_nearest_draw (spec : QuantizerSpec) (dir : Direction)
    (h : selRounding spec dir = RoundingMode.Nearest) (u v x : ℚ) :
    quantizeElem spec dir u x = quantizeElem spec dir v x := by
  rw [quantizeElem, quantizeElem, h]

/-- C9: quantize is a per-element map: the output has the same length as
the input, the element at each position is a function of the input element
at that position and the draw at that position alone, and under nearest
rounding the result does not depend on the draw stream at all. -/
theorem C9_elementwise (spec : QuantizerSpec) (dir : Direction)
    (us vs : ℕ → ℚ) (xs ys : List ℚ) (i : ℕ) :
    (quantizeArray spec dir us xs).length = xs.length ∧
    (quantizeArray spec dir us xs)[i]? =
      (xs[i]?).map (quantizeElem spec dir (us i)) ∧
    (xs[i]? = ys[i]? → us i = vs i →
      (quantizeArray spec dir us xs)[i]? = (quantizeArray spec dir vs ys)[i]?) ∧
    (selRounding spec dir = RoundingMode.Nearest →
      quantizeArray spec dir us xs = quantizeArray spec dir vs xs) := by
  refine ⟨mapWithDraws_length _ us xs, mapWithDraws_getElem _ us xs i, ?_, ?_⟩
  · intro hxy hu
    rw [quantizeArray, quantizeArray, mapWithDraws_getElem, mapWithDraws_getElem,
      hxy, hu]
  · intro h
    exact mapWithDraws_congr _ _ (quantizeElem_nearest_draw spec dir h) us vs xs

lemma stepParam_eq (opt : PrecisionOptimizer) (d : StepDraws) (p : ParamState)
    (g : ℚ) :
    stepParam opt d p g =
      { weight := quantizeElem opt.weightQuant Direction.Forward d.uw
          (opt.base.update p.weight
            (quantizeElem opt.gradQuant Direction.Backward d.ug g)
            p.momOpt p.accOpt).1
        momOpt := (opt.base.update p.weight
            (quantizeElem opt.gradQuant Direction.Backward d.ug g)
            p.momOpt p.accOpt).2.1.map
          (quantizeElem opt.momentumQuant Direction.Forward d.um)
        accOpt := (opt.base.update p.weight
            (quantizeElem opt.gradQuant Direction.Backward d.ug g)
            p.momOpt p.accOpt).2.2.map
          (quantizeElem opt.accQuant Direction.Forward d.ua) } := rfl

lemma stepAll_getElem (opt : PrecisionOptimizer) :
    ∀ (ds : ℕ → StepDraws) (ps : List (ParamState × ℚ)) (i : ℕ),
      (stepAll opt ds ps)[i]? =
        (ps[i]?).map (fun pg => stepParam opt (ds i) pg.1 pg.2) := by
  intro ds ps
  induction ps generalizing ds with
  | nil =>
    intro i
    rw [stepAll]
    rfl
  | cons pg rest ih =>
    intro i
    rw [stepAll]
    cases i with
    | zero =>
      rw [List.getElem?_cons_zero, List.getElem?_cons_zero]
      rfl
    | succ n =>
      rw [List.getElem?_cons_succ, List.getElem?_cons_succ]
      exact ih (fun j => ds (j + 1)) n

/-- C1: one PrecisionOptimizer step processes each parameter by quantizing
the gradient with gradQuant in the Backward direction before the base
update, then quantizing the updated momentum buffer with momentumQuant
Forward, the updated accumulator with accQuant Forward, and the proposed
new weight with weightQuant Forward, which becomes the stored weight; the
full step applies this to every parameter independently. -/
theorem C1_step_order (opt : PrecisionOptimizer) (d : StepDraws)
    (p : ParamState) (g : ℚ) (ds : ℕ → StepDraws)
    (ps : List (ParamState × ℚ)) (i : ℕ) :
    stepParam opt d p g =
      { weight := quantizeElem opt.weightQuant Direction.Forward d.uw
          (opt.base.update p.weight
            (quantizeElem opt.gradQuant Direction.Backward d.ug g)
            p.momOpt p.accOpt).1
        momOpt := (opt.base.update p.weight
            (quantizeElem opt.gradQuant Direction.Backward d.ug g)
            p.momOpt p.accOpt).2.1.map
          (quantizeElem opt.momentumQuant Direction.Forward d.um)
        accOpt := (opt.base.update p.weight
            (quantizeElem opt.gradQuant Direction.Backward d.ug g)
            p.momOpt p.accOpt).2.2.map
          (quantizeElem opt.accQuant Direction.Forward d.ua) } ∧
    (stepAll opt ds ps)[i]? =
      (ps[i]?).map (fun pg => stepParam opt (ds i) pg.1 pg.2) :=
  ⟨stepParam_eq opt d p g, stepAll_getElem opt ds ps i⟩

/-- Total loss accumulated over a loader with a fixed model state, loss of
each batch weighted by its size, as the notebook accumulates it. -/
def lossSumOn {P B : Type} (ops : EpochOps P B) (p : P) (loader : List B) : ℚ :=
  (loader.map (fun b => ops.lossOn p b * (ops.sizeOn b : ℚ))).sum

/-- Total number of correct predictions over a loader with a fixed model
state. -/
def correctSumOn {P B : Type} (ops : EpochOps P B) (p : P)
    (loader : List B) : ℚ :=
  (loader.map (fun b => (ops.correctOn p b : ℚ))).sum

/-- Total number of samples in a loader. -/
def sizeSumOn {P B : Type} (ops : EpochOps P B) (loader : List B) : ℚ :=
  (loader.map (fun b => (ops.sizeOn b : ℚ))).sum

lemma runBatches_eval {P B : Type} (ops : EpochOps P B) (p : P) :
    ∀ (loader : List B) (l c t : ℚ),
      runBatches ops Phase.eval (p, l, c, t) loader =
        (p, l + lossSumOn ops p loader, c + correctSumOn ops p loader,
          t + sizeSumOn ops loader) := by
  intro loader
  induction loader with
  | nil =>
    intro l c t
    rw [runBatches]
    simp [lossSumOn, correctSumOn, sizeSumOn]
  | cons b rest ih =>
    intro l c t
    rw [runBatches]
    have hphase : (if (Phase.eval = Phase.train) then ops.updateOn p b else p)
        = p := rfl
    simp only [hphase]
    rw [ih]
    simp only [lossSumOn, correctSumOn, sizeSumOn, List.map_cons, List.sum_cons]
    refine congrArg (Prod.mk p) ?_
    refine congrArg₂ Prod.mk (by ring) ?_
    exact congrArg₂ Prod.mk (by ring) (by ring)

lemma runBatches_train_fst {P B : Type} (ops : EpochOps P B) :
    ∀ (loader : List B) (p : P) (l c t : ℚ),
      (runBatches ops Phase.train (p, l, c, t) loader).1 =
        List.foldl ops.updateOn p loader := by
  intro loader
  induction loader with
  | nil =>
    intro p l c t
    rw [runBatches, List.foldl_nil]
  | cons b rest ih =>
    intro p l c t
    rw [runBatches, List.foldl_cons]
    exact ih (ops.updateOn p b) _ _ _

/-- C10: running an epoch in the eval phase leaves the model and optimizer
state untouched (the train-phase update is never executed) while the
returned loss and accuracy are still the averages over all batches of the
loader, computed with the unchanged state; in the train phase the state is
instead folded through the per-batch update. -/
theorem C10_eval_frame {P B : Type} (ops : EpochOps P B) (loader : List B)
    (p0 : P) :
    (run_epoch ops loader p0 Phase.eval).1 = p0 ∧
    (run_epoch ops loader p0 Phase.eval).2.1 =
      lossSumOn ops p0 loader / sizeSumOn ops loader ∧
    (run_epoch ops loader p0 Phase.eval).2.2 =
      correctSumOn ops p0 loader / sizeSumOn ops loader * 100 ∧
    (run_epoch ops loader p0 Phase.train).1 =
      List.foldl ops.updateOn p0 loader := by
  have h := runBatches_eval ops p0 loader 0 0 0
  rw [zero_add, zero_add, zero_add] at h
  refine ⟨?_, ?_, ?_, ?_⟩
  · rw [run_epoch, h]
  · rw [run_epoch, h]
  · rw [run_epoch, h]
  · rw [run_epoch]
    exact runBatches_train_fst ops loader p0 0 0 0

/-- A checked optimizer step built from raw format parameters: first the
FloatingPoint construction validates them, then a fixed low-precision
configuration on a plain gradient-descent rule performs the step.  Any
error can therefore only originate at construction. -/
def stepChecked (e m : ℤ) (lr : ℚ) (d : StepDraws) (p : ParamState)
    (g : ℚ) : Except QError ParamState :=
  (FloatingPoint e m).map fun F =>
    stepParam
      ⟨plainGD lr,
        ⟨some F, none, RoundingMode.Nearest, RoundingMode.Nearest⟩,
        ⟨some F, none, RoundingMode.Nearest, RoundingMode.Stochastic⟩,
        ⟨some F, none, RoundingMode.Nearest, RoundingMode.Stochastic⟩,
        ⟨some F, none, RoundingMode.Nearest, RoundingMode.Nearest⟩⟩ d p g

/-- C8: NumberFormat construction fails with InvalidFormat exactly when
the exponent width is below one, the mantissa width is negative, or the
total width exceeds the computation width, and this is the only place a
format error can arise: with valid parameters the construction succeeds
and a full optimizer step over the constructed format returns a value,
never an error. -/
theorem C8_invalid_format (e m : ℤ) (lr : ℚ) (d : StepDraws)
    (p : ParamState) (g : ℚ) :
    (FloatingPoint e m = Except.error QError.InvalidFormat ↔
      (e < 1 ∨ m < 0 ∨ (compWidth : ℤ) < e + m + 1)) ∧
    (stepChecked e m lr d p g = Except.error QError.InvalidFormat ↔
      (e < 1 ∨ m < 0 ∨ (compWidth : ℤ) < e + m + 1)) ∧
    (¬(e < 1 ∨ m < 0 ∨ (compWidth : ℤ) < e + m + 1) →
      (∃ F, FloatingPoint e m = Except.ok F) ∧
      ∃ q, stepChecked e m lr d p g = Except.ok q) := by
  by_cases h : e < 1 ∨ m < 0 ∨ (compWidth : ℤ) < e + m + 1
  · refine ⟨?_, ?_, fun hc => absurd h hc⟩
    · rw [FloatingPoint, if_pos h]
      exact ⟨fun _ => h, fun _ => rfl⟩
    · rw [stepChecked, FloatingPoint, if_pos h]
      exact ⟨fun _ => h, fun _ => rfl⟩
  · refine ⟨?_, ?_, fun _ => ?_⟩
    · rw [FloatingPoint, if_neg h]
      constructor
      · intro hx
        simp at hx
      · intro hx
        exact absurd hx h
    · rw [stepChecked, FloatingPoint, if_neg h]
      constructor
      · intro hx
        simp [Except.map] at hx
      · intro hx
        exact absurd hx h
    · constructor
      · exact ⟨_, by rw [FloatingPoint, if_neg h]⟩
      · exact ⟨_, by rw [stepChecked, FloatingPoint, if_neg h]; rfl⟩

lemma maxExpF_bit8 : maxExpF bit8 = 15 := by norm_num [maxExpF, bit8]

lemma minExpF_bit8 : minExpF bit8 = -14 := by norm_num [minExpF, maxExpF, bit8]

lemma maxNormal_bit8 : maxNormal bit8 = 57344 := by
  rw [maxNormal, maxExpF_bit8]
  norm_num [bit8]

lemma minSubnormal_bit8 : minSubnormal bit8 = 1 / 65536 := by
  rw [minSubnormal, minExpF_bit8]
  norm_num [bit8]

lemma log_q995 : Int.log 2 ((199 : ℚ) / 200) = -1 :=
  int_log2_eq (by norm_num) (by norm_num)

lemma binade_q995 : binadeExp bit8 ((199 : ℚ) / 200) = -1 := by
  rw [binadeExp, log_q995, maxExpF_bit8, minExpF_bit8]
  decide

lemma gridStep_q995 : gridStep bit8 ((199 : ℚ) / 200) = 1 / 8 := by
  rw [gridStep, binade_q995]
  norm_num [bit8]

lemma gridIndex_q995 : gridIndex bit8 ((199 : ℚ) / 200) = 7 := by
  rw [gridIndex, gridStep_q995]
  norm_num [Int.floor_eq_iff]

lemma gridFrac_q995 : gridFrac bit8 ((199 : ℚ) / 200) = 24 / 25 := by
  rw [gridFrac_eq, gridStep_q995, gridIndex_q995]
  norm_num

lemma lowerB_q995 : lowerB bit8 ((199 : ℚ) / 200) = 7 / 8 := by
  rw [lowerB, gridIndex_q995, gridStep_q995]
  norm_num

lemma upperB_q995 : upperB bit8 ((199 : ℚ) / 200) = 1 := by
  rw [upperB, lowerB_q995, gridStep_q995]
  norm_num

lemma hin1_q995 : minSubnormal bit8 ≤ |(199 : ℚ) / 200| := by
  rw [minSubnormal_bit8, abs_of_pos (by norm_num : (0 : ℚ) < 199 / 200)]
  norm_num

lemma hin2_q995 : |(199 : ℚ) / 200| ≤ maxNormal bit8 := by
  rw [maxNormal_bit8, abs_of_pos (by norm_num : (0 : ℚ) < 199 / 200)]
  norm_num

lemma quantizeNearest_q995 : quantizeNearest bit8 ((199 : ℚ) / 200) = 1 := by
  have habs : |(199 : ℚ) / 200| = 199 / 200 :=
    abs_of_pos (by norm_num)
  rw [quantizeNearest,
    quantizeScalar_in_range bit8 nearestPick hin1_q995 hin2_q995, habs,
    gridIndex_q995, gridFrac_q995, nearestPick, if_pos (by norm_num),
    signQ, if_pos (by norm_num), one_mul]
  exact upperB_q995

lemma log_q98 : Int.log 2 ((9 : ℚ) / 8) = 0 :=
  int_log2_eq (by norm_num) (by norm_num)

lemma binade_q98 : binadeExp bit8 ((9 : ℚ) / 8) = 0 := by
  rw [binadeExp, log_q98, maxExpF_bit8, minExpF_bit8]
  decide

lemma gridStep_q98 : gridStep bit8 ((9 : ℚ) / 8) = 1 / 4 := by
  rw [gridStep, binade_q98]
  norm_num [bit8]

lemma gridIndex_q98 : gridIndex bit8 ((9 : ℚ) / 8) = 4 := by
  rw [gridIndex, gridStep_q98]
  norm_num [Int.floor_eq_iff]

lemma lowerB_q98 : lowerB bit8 ((9 : ℚ) / 8) = 1 := by
  rw [lowerB, gridIndex_q98, gridStep_q98]
  norm_num

lemma upperB_q98 : upperB bit8 ((9 : ℚ) / 8) = 5 / 4 := by
  rw [upperB, lowerB_q98, gridStep_q98]
  norm_num

lemma hin1_q98 : minSubnormal bit8 ≤ |(9 : ℚ) / 8| := by
  rw [minSubnormal_bit8, abs_of_pos (by norm_num : (0 : ℚ) < 9 / 8)]
  norm_num

lemma hin2_q98 : |(9 : ℚ) / 8| ≤ maxNormal bit8 := by
  rw [maxNormal_bit8, abs_of_pos (by norm_num : (0 : ℚ) < 9 / 8)]
  norm_num

lemma log_q54 : Int.log 2 ((5 : ℚ) / 4) = 0 :=
  int_log2_eq (by norm_num) (by norm_num)

lemma binade_q54 : binadeExp bit8 ((5 : ℚ) / 4) = 0 := by
  rw [binadeExp, log_q54, maxExpF_bit8, minExpF_bit8]
  decide

lemma gridStep_q54 : gridStep bit8 ((5 : ℚ) / 4) = 1 / 4 := by
  rw [gridStep, binade_q54]
  norm_num [bit8]

lemma representable_q54 : Representable bit8 ((5 : ℚ) / 4) := by
  have habs : |(5 : ℚ) / 4| = 5 / 4 := abs_of_pos (by norm_num)
  refine Or.inr ⟨?_, ?_, ⟨5, ?_⟩⟩
  · rw [habs, minSubnormal_bit8]
    norm_num
  · rw [habs, maxNormal_bit8]
    norm_num
  · rw [habs, gridStep_q54]
    norm_num

/-- The PrecisionOptimizer of the end-to-end scenario of the spec: a plain
gradient-descent base rule with learning rate one twentieth, wrapped with
the four quantizers configured in the notebook. -/
def optScenario : PrecisionOptimizer :=
  ⟨plainGD (1 / 20), weight_quant, grad_quant, momentum_quant, acc_quant⟩

/-- C7: with a single scalar weight of one, gradient one tenth, momentum
disabled, weightQuant the 8-bit FloatingPoint format with nearest
rounding and a plain gradient-descent rule with learning rate one
twentieth, one step produces the intermediate weight 199 over 200 and
stores the nearest bit8 grid value, which is exactly one. -/
theorem C7_end_to_end (d : StepDraws) :
    quantizeElem grad_quant Direction.Backward d.ug (1 / 10) = 1 / 10 ∧
    (plainGD (1 / 20)).update 1 (1 / 10) none none = (199 / 200, none, none) ∧
    quantizeNearest bit8 (199 / 200) = 1 ∧
    stepParam optScenario d ⟨1, none, none⟩ (1 / 10) = ⟨1, none, none⟩ := by
  refine ⟨rfl, ?_, quantizeNearest_q995, ?_⟩
  · show ((1 : ℚ) - 1 / 20 * (1 / 10), (none : Option ℚ), (none : Option ℚ))
      = (199 / 200, none, none)
    norm_num
  · show ParamState.mk (quantizeNearest bit8 ((1 : ℚ) - 1 / 20 * (1 / 10)))
      none none = ⟨1, none, none⟩
    rw [show (1 : ℚ) - 1 / 20 * (1 / 10) = 199 / 200 by norm_num,
      quantizeNearest_q995]

/-- Witness for C2: the spec boundary example, an input of ten to the
tenth power under the 8-bit format, saturates to 57344, the maximum
representable magnitude of that format, not to infinity. -/
theorem C2_range_saturation_witness :
    quantizeNearest bit8 (10 ^ 10) = 57344 := by
  have hcond : maxNormal bit8 < |(10 : ℚ) ^ 10| := by
    rw [maxNormal_bit8, abs_of_pos (by norm_num : (0 : ℚ) < 10 ^ 10)]
    norm_num
  have h := ((C2_range_saturation bit8 ((10 : ℚ) ^ 10) 0 le_rfl).2.2.1 hcond).1
  rw [h, signQ, if_pos (by norm_num : (0 : ℚ) < 10 ^ 10), one_mul,
    maxNormal_bit8]

/-- Witness for C3: nine eighths lies exactly halfway between the bit8
grid points one and five fourths; the tie resolves to one, the bracket
with even grid index. -/
theorem C3_nearest_correct_witness : quantizeNearest bit8 (9 / 8) = 1 := by
  have habs : |(9 : ℚ) / 8| = 9 / 8 := abs_of_pos (by norm_num)
  have htie : |(9 : ℚ) / 8| - lowerB bit8 |(9 : ℚ) / 8| =
      upperB bit8 |(9 : ℚ) / 8| - |(9 : ℚ) / 8| := by
    rw [habs, lowerB_q98, upperB_q98]
    norm_num
  have h := (C3_nearest_correct bit8 (9 / 8) hin1_q98 hin2_q98).2.2.2.2.2 htie
  rw [h, habs, gridIndex_q98, signQ, if_pos (by norm_num), one_mul,
    if_pos (show (4 : ℤ) % 2 = 0 by decide), lowerB_q98]

/-- Witness for C5: with draw one half and input 199 over 200, the
normalized distance to the lower bit8 bracket is 24 over 25, the draw
falls below it, and stochastic rounding rounds up to one. -/
theorem C5_stochastic_unbiased_witness :
    quantizeStochastic bit8 (1 / 2) (199 / 200) = 1 := by
  have habs : |(199 : ℚ) / 200| = 199 / 200 := abs_of_pos (by norm_num)
  have h := (C5_stochastic_unbiased bit8 (199 / 200) (1 / 2) hin1_q995
    hin2_q995 (by norm_num) (by norm_num)).2.2.1
  rw [h, habs, lowerB_q995, upperB_q995, if_pos (by norm_num), signQ,
    if_pos (by norm_num), one_mul]

/-- Witness for C6: five fourths is representable in bit8 and nearest
quantization returns it unchanged. -/
theorem C6_idempotent_witness : quantizeNearest bit8 (5 / 4) = 5 / 4 :=
  (C6_idempotent bit8 (5 / 4) (1 / 3) 0 0 0 representable_q54 le_rfl le_rfl
    le_rfl).1

/-- Witness for C4: the weight quantizer of the notebook has no backward
format, so backward quantization passes a concrete array through
unchanged. -/
theorem C4_identity_passthrough_witness :
    quantizeArray weight_quant Direction.Backward (fun _ => 0) [1 / 3, 5] =
      [1 / 3, 5] :=
  (C4_identity_passthrough weight_quant (fun _ => 0) [1 / 3, 5]).2 rfl

/-- Witness for C9: the activation quantizer of the notebook rounds to
nearest forward, so the result does not depend on the draw stream. -/
theorem C9_elementwise_witness :
    quantizeArray act_error_quant Direction.Forward (fun _ => 0) [9 / 8] =
      quantizeArray act_error_quant Direction.Forward (fun _ => 1 / 2)
        [9 / 8] :=
  (C9_elementwise act_error_quant Direction.Forward (fun _ => 0)
    (fun _ => 1 / 2) [9 / 8] [9 / 8] 0).2.2.2 rfl

/-- Witness for C8: a negative mantissa width is rejected with
InvalidFormat, while the valid bit8 parameters let a full checked
optimizer step succeed. -/
theorem C8_invalid_format_witness :
    FloatingPoint 5 (-1) = Except.error QError.InvalidFormat ∧
    (∃ q, stepChecked 5 2 (1 / 20) ⟨0, 0, 0, 0⟩ ⟨1, none, none⟩ (1 / 10) =
      Except.ok q) :=
  ⟨(C8_invalid_format 5 (-1) (1 / 20) ⟨0, 0, 0, 0⟩ ⟨1, none, none⟩
      (1 / 10)).1.mpr (by norm_num),
    ((C8_invalid_format 5 2 (1 / 20) ⟨0, 0, 0, 0⟩ ⟨1, none, none⟩
      (1 / 10)).2.2 (by norm_num [compWidth])).2⟩
